import Mathlib

/-!
Verification of the `bintree` package: a binary search tree with
Day-Stout-Warren rebalancing and a range scanner.  The Go code is
shallowly embedded: each Go function becomes a Lean function on an
inductive `Tree`, pointer surgery becomes tree rebuilding, and the
unguarded pointer dereferences of `compress` become `Option` failure.
-/

namespace Bintree

/-- Tree nodes: `node v l r` holds an element and two subtrees.
A `nil` tree is the empty tree (a nil `*Node` in the source). -/
inductive Tree (α : Type) where
  | nil : Tree α
  | node (v : α) (l r : Tree α) : Tree α
deriving DecidableEq

variable {α : Type}

/-- Number of nodes of a tree. -/
def size : Tree α → Nat
  | .nil => 0
  | .node _ l r => size l + size r + 1

/-- Height of the tree, as computed by the source `Height` method:
0 for the empty tree, otherwise `max` of the children plus one. -/
def height : Tree α → Nat
  | .nil => 0
  | .node _ l r => max (height l) (height r) + 1

/-- In-order list of elements (ascending scan order). -/
def inorder : Tree α → List α
  | .nil => []
  | .node v l r => inorder l ++ v :: inorder r

/-- Three-way comparison, the `Cmp` contract of the `Interface` type:
negative when the receiver precedes the argument, zero when equal,
positive otherwise. -/
def cmp [LinearOrder α] (a b : α) : Int :=
  if a < b then -1 else if a = b then 0 else 1

/-- BST ordering invariant maintained by the code: values in the left
subtree are strictly smaller than the node value, values in the right
subtree are greater or equal (duplicates go right). -/
def IsBST [LinearOrder α] : Tree α → Prop
  | .nil => True
  | .node v l r =>
      (∀ x ∈ inorder l, x < v) ∧ (∀ x ∈ inorder r, v ≤ x) ∧ IsBST l ∧ IsBST r

instance IsBST.dec [LinearOrder α] : (t : Tree α) → Decidable (IsBST t)
  | .nil => isTrue trivial
  | .node v l r =>
      haveI := IsBST.dec l
      haveI := IsBST.dec r
      decidable_of_iff
        ((∀ x ∈ inorder l, x < v) ∧ (∀ x ∈ inorder r, v ≤ x) ∧ IsBST l ∧ IsBST r)
        Iff.rfl

/-- Insert, from `(*Node) Insert`: descend comparing the new element
against each visited node; smaller goes left, greater (or equal with
`unique == false`) goes right; equal with `unique == true` fails and
leaves the tree unchanged.  Returns the new root and the success flag. -/
def Insert [LinearOrder α] : Tree α → α → Bool → Tree α × Bool
  | .nil, v, _ => (.node v .nil .nil, true)
  | .node w l r, v, unique =>
      let c := cmp v w
      if c < 0 then
        let p := Insert l v unique
        (.node w p.1 r, p.2)
      else if 0 < c ∨ (c = 0 ∧ unique = false) then
        let p := Insert r v unique
        (.node w l p.1, p.2)
      else
        (.node w l r, false)

/-- Value of the leftmost node reachable from a node with value `v` and
left subtree `l` (the value located by the source `minNode`). -/
def minVal0 : α → Tree α → α
  | v, .nil => v
  | _, .node w l _ => minVal0 w l

/-- Removal of the leftmost node: the effect of `rmNode` applied to the
node located by `minNode` (which has no left subtree, so its right
subtree is spliced into its parent slot). -/
def removeMin : Tree α → Tree α
  | .nil => .nil
  | .node _ .nil r => r
  | .node v (.node w a b) r => .node v (removeMin (.node w a b)) r

/-- Remove, from `(*Node) Remove` = `findNode` + `rmNode`: descend by
the key; at the matched node, splice a single child through, or — with
two children — overwrite the node value with the in-order successor
(the minimum of the right subtree) and remove the successor node.
Returns the new root and the (post-surgery) value of the removed node,
`none` when no node matched. -/
def Remove [LinearOrder α] : Tree α → α → Tree α × Option α
  | .nil, _ => (.nil, none)
  | .node v l r, k =>
      let c := cmp k v
      if c = 0 then
        match l, r with
        | .nil, _ => (r, some v)
        | .node lv ll lr, .nil => (.node lv ll lr, some v)
        | .node lv ll lr, .node rv rl rr =>
            let m := minVal0 rv rl
            (.node m (.node lv ll lr) (removeMin (.node rv rl rr)), some m)
      else if c < 0 then
        let p := Remove l k
        (.node v p.1 r, p.2)
      else
        let p := Remove r k
        (.node v l p.1, p.2)

/-- The subtree rooted at the node `findNode` locates for a key:
first node on the descent path whose value compares equal to the key. -/
def findSubtree [LinearOrder α] : Tree α → α → Option (Tree α)
  | .nil, _ => none
  | .node v l r, k =>
      let c := cmp k v
      if c = 0 then some (.node v l r)
      else if c < 0 then findSubtree l k
      else findSubtree r k

/-- Weight of left subtrees, used only as a termination measure for the
`tree_to_vine` rotation loop. -/
def lweight : Tree α → Nat
  | .nil => 0
  | .node _ l r => lweight l + lweight r + size l

/-- Phase 1 of Day-Stout-Warren, from `tree_to_vine`: while the current
remainder has a left child, rotate right (promote the left child above
the current node); otherwise append the node to the vine and advance to
its right child, counting nodes.  Returns the vine and the node count. -/
def tree_to_vine : Tree α → Tree α × Nat
  | .nil => (.nil, 0)
  | .node v .nil r =>
      let p := tree_to_vine r
      (.node v .nil p.1, p.2 + 1)
  | .node v (.node lv ll lr) r => tree_to_vine (.node lv ll (.node v lr r))
termination_by t => size t + lweight t
decreasing_by
  · simp only [size, lweight]; omega
  · simp only [size, lweight]; omega

/-- A vine: every node's left subtree is empty. -/
def isVine : Tree α → Prop
  | .nil => True
  | .node _ l r => l = .nil ∧ isVine r

/-- Compress, from `compress`: perform `count` left rotations along the
right spine, pivoting on the 1st, 3rd, 5th, ... spine nodes.  The source
performs unguarded pointer dereferences; a missing pivot or missing
right child of a pivot is modelled as `none` (a nil-dereference fault). -/
def compress : Tree α → Nat → Option (Tree α)
  | t, 0 => some t
  | .node v l (.node rv rl rr), n + 1 =>
      (compress rr n).map (fun t2 => .node rv (.node v l rl) t2)
  | _, _ + 1 => none

/-- Helper loop of `np2`: double `r` while `r <= i`, return `r >> 1`.
The source starts from `r = 1`; positivity of `r` is carried as a
hypothesis so the loop provably terminates. -/
def np2go (i : Nat) : (r : Nat) → 0 < r → Nat := fun r _ =>
  if h : r ≤ i then np2go i (2 * r) (by omega) else r / 2
termination_by r => i + 1 - r
decreasing_by omega

/-- Nearest power of two that is less than or equal to `i`
(`2 ^ floor(log2 i)`), from `np2`. -/
def np2 (i : Nat) : Nat := np2go i 1 (by omega)

/-- The `for sz > 1` loop of `vine_to_tree`: compress with `sz >> 1`
rotations and halve `sz`, until `sz <= 1`. -/
def vtt_loop (root : Tree α) (sz : Nat) : Option (Tree α) :=
  if h : 1 < sz then
    (compress root (sz / 2)).bind (fun root2 => vtt_loop root2 (sz / 2))
  else some root
termination_by sz
decreasing_by exact Nat.div_lt_self (by omega) (by omega)

/-- Phase 2 of Day-Stout-Warren, from `vine_to_tree`: one compression
of `lc = sz + 1 - np2(sz+1)` rotations, then the halving loop. -/
def vine_to_tree (root : Tree α) (sz : Nat) : Option (Tree α) :=
  let lc := sz + 1 - np2 (sz + 1)
  (compress root lc).bind (fun root2 => vtt_loop root2 (sz - lc))

/-- The `(*Node) Balance` entry point: linearize to a vine, then fold
the vine into a route-balanced tree. -/
def Balance (t : Tree α) : Option (Tree α) :=
  let p := tree_to_vine t
  vine_to_tree p.1 p.2

/-- Right spine of a tree: the value and left subtree of each node
reached by following right children from the root. -/
def spine : Tree α → List (α × Tree α)
  | .nil => []
  | .node v l r => (v, l) :: spine r

/-- Heights of the left subtrees hanging off the right spine. -/
def hmap (t : Tree α) : List Nat := (spine t).map (fun p => height p.2)

/-- Height of a tree as a function of its spine left-heights. -/
def hf : List Nat → Nat
  | [] => 0
  | a :: l => max (a + 1) (hf l + 1)

/-- Action of one `compress` call on the spine left-heights. -/
def chl : Nat → List Nat → List Nat
  | 0, l => l
  | n + 1, a :: b :: l => (max a b + 1) :: chl n l
  | _ + 1, l => l

/-- Pairwise combination underlying `chl` when the rotation count
covers exactly the whole list. -/
def pairFold : List Nat → List Nat
  | a :: b :: l => (max a b + 1) :: pairFold l
  | _ => []

/-- The `clow` value of `scan`: `low.Cmp(root.V)`, or `-1` when `low`
is absent (nil). -/
def clowOf [LinearOrder α] : Option α → α → Int
  | some lo, v => cmp lo v
  | none, _ => -1

/-- The `chi` value of `scan`: `hi.Cmp(root.V)`, or `1` when `hi` is
absent (nil). -/
def chiOf [LinearOrder α] : Option α → α → Int
  | some h, v => cmp h v
  | none, _ => 1

/-- Decision table of the range scan (lines computing `left`, `emit`,
`right` in `scan`). -/
def scanDecide [LinearOrder α] (low hi : Option α) (v : α) : Bool × Bool × Bool :=
  if 0 < clowOf low v then (false, false, true)
  else if clowOf low v = 0 then (false, true, true)
  else if 0 ≤ chiOf hi v then (true, true, true)
  else (true, false, false)

/-- Sequence of elements emitted by a full (uncancelled) scan, from
`scan`: pre-side subtree, the node when `emit`, then post-side subtree;
`reverse` swaps which side is visited first. -/
def scanList [LinearOrder α] : Tree α → Bool → Option α → Option α → List α
  | .nil, _, _, _ => []
  | .node v l r, rev, low, hi =>
      let d := scanDecide low hi v
      if rev then
        (if d.2.2 then scanList r rev low hi else []) ++
          (if d.2.1 then [v] else []) ++
          (if d.1 then scanList l rev low hi else [])
      else
        (if d.1 then scanList l rev low hi else []) ++
          (if d.2.1 then [v] else []) ++
          (if d.2.2 then scanList r rev low hi else [])

/-- The claim's lower-bound test `low.Cmp(v) <= 0`, true when `low` is
absent. -/
def lowOk [LinearOrder α] (low : Option α) (v : α) : Bool :=
  match low with
  | none => true
  | some lo => decide (cmp lo v ≤ 0)

/-- The claim's upper-bound test `hi.Cmp(v) >= 0`, true when `hi` is
absent. -/
def hiOk [LinearOrder α] (hi : Option α) (v : α) : Bool :=
  match hi with
  | none => true
  | some h => decide (0 ≤ cmp h v)

/-- Bounds are not crossed: when both are present, `low ≤ hi`. -/
def boundsOk [LinearOrder α] (low hi : Option α) : Bool :=
  match low, hi with
  | some lo, some h => decide (lo ≤ h)
  | _, _ => true

/-- Go semantics of `close` on a channel: closing an already-closed
channel is a run-time panic, modelled as `none`. -/
def goChanClose (closed : Bool) : Option Bool :=
  if closed then none else some true

/-- Consumer-visible state of a `Scanner`'s `quit` channel (the only
state `Stop` touches: `Stop` is `close(sc.quit)`). -/
structure ScannerSt where
  quitClosed : Bool
deriving DecidableEq

/-- The `Stop` method: `close(sc.quit)`. -/
def Stop (sc : ScannerSt) : Option ScannerSt :=
  (goChanClose sc.quitClosed).map (fun b => ⟨b⟩)

/-- Go semantics of `v, ok := <-ch` as used by `Next`, for a channel
holding the not-yet-received elements `buf`: a buffered element is
delivered; an empty closed channel yields `(zero, false)` immediately;
an empty open channel blocks (`none`). -/
def goChanRecv (buf : List α) (closed : Bool) : Option (Option α × List α) :=
  match buf with
  | x :: rest => some (some x, rest)
  | [] => if closed then some (none, []) else none

/-- A mutating operation on the tree: an `Insert` (with its `unique`
flag) or a `Remove`. -/
inductive Op (α : Type) where
  | ins (v : α) (unique : Bool) : Op α
  | rem (k : α) : Op α

/-- Apply one operation, keeping the resulting root. -/
def applyOp [LinearOrder α] (t : Tree α) : Op α → Tree α
  | .ins v u => (Insert t v u).1
  | .rem k => (Remove t k).1

/-- Run a sequence of operations starting from the empty tree. -/
def runOps [LinearOrder α] (ops : List (Op α)) : Tree α :=
  ops.foldl applyOp .nil

theorem cmp_eq_zero_iff [LinearOrder α] {a b : α} : cmp a b = 0 ↔ a = b := by
  unfold cmp
  split_ifs with h1 h2
  · simpa using h1.ne
  · simpa using h2
  · simpa using h2

theorem cmp_lt_zero_iff [LinearOrder α] {a b : α} : cmp a b < 0 ↔ a < b := by
  unfold cmp
  split_ifs with h1 h2
  · simpa using h1
  · simp [h2]
  · simpa using h1

theorem cmp_pos_iff [LinearOrder α] {a b : α} : 0 < cmp a b ↔ b < a := by
  unfold cmp
  split_ifs with h1 h2
  · simpa using lt_asymm h1
  · simp [h2]
  · simpa using lt_of_le_of_ne (le_of_not_lt h1) (Ne.symm h2)

theorem cmp_le_zero_iff [LinearOrder α] {a b : α} : cmp a b ≤ 0 ↔ a ≤ b := by
  rw [le_iff_lt_or_eq, cmp_lt_zero_iff, cmp_eq_zero_iff, ← le_iff_lt_or_eq]

theorem cmp_nonneg_iff [LinearOrder α] {a b : α} : 0 ≤ cmp a b ↔ b ≤ a := by
  rw [le_iff_lt_or_eq, cmp_pos_iff, eq_comm (a := (0 : Int)), cmp_eq_zero_iff,
    eq_comm (a := a), ← le_iff_lt_or_eq]

theorem inorder_length (t : Tree α) : (inorder t).length = size t := by
  induction t with
  | nil => rfl
  | node v l r ihl ihr => simp [inorder, size, ihl, ihr]; omega

theorem scanDecide_below [LinearOrder α] (hi : Option α) {v lo : α}
    (h : v < lo) : scanDecide (some lo) hi v = (false, false, true) := by
  have h1 : (0 : Int) < cmp lo v := cmp_pos_iff.mpr h
  simp [scanDecide, clowOf, chiOf, h1]

theorem scanDecide_eq_low [LinearOrder α] (hi : Option α) (v : α) :
    scanDecide (some v) hi v = (false, true, true) := by
  have h0 : cmp v v = 0 := cmp_eq_zero_iff.mpr rfl
  have h1 : ¬ (0 : Int) < cmp v v := by omega
  simp [scanDecide, clowOf, chiOf, h0, h1]

theorem scanDecide_mid [LinearOrder α] (low hi : Option α) (v : α)
    (hlow : low = none ∨ ∃ lo, low = some lo ∧ lo < v)
    (hhi : hi = none ∨ ∃ h, hi = some h ∧ v ≤ h) :
    scanDecide low hi v = (true, true, true) := by
  rcases hlow with rfl | ⟨lo, rfl, hlo⟩
  · rcases hhi with rfl | ⟨hv, rfl, hhv⟩
    · simp [scanDecide, clowOf, chiOf]
    · have h2 : (0 : Int) ≤ cmp hv v := cmp_nonneg_iff.mpr hhv
      simp [scanDecide, clowOf, chiOf, h2]
  · have h0 : cmp lo v < 0 := cmp_lt_zero_iff.mpr hlo
    have h1 : ¬ (0 : Int) < cmp lo v := by omega
    have h1b : cmp lo v ≠ 0 := by omega
    rcases hhi with rfl | ⟨hv, rfl, hhv⟩
    · simp [scanDecide, clowOf, chiOf, h1, h1b]
    · have h2 : (0 : Int) ≤ cmp hv v := cmp_nonneg_iff.mpr hhv
      simp [scanDecide, clowOf, chiOf, h1, h1b, h2]

theorem scanDecide_above [LinearOrder α] (low hi : Option α) (v : α)
    (hlow : low = none ∨ ∃ lo, low = some lo ∧ lo < v)
    (hhi : ∃ h, hi = some h ∧ h < v) :
    scanDecide low hi v = (true, false, false) := by
  obtain ⟨hv, rfl, hlt⟩ := hhi
  have hc : cmp hv v < 0 := cmp_lt_zero_iff.mpr hlt
  have h2 : ¬ (0 : Int) ≤ cmp hv v := by omega
  rcases hlow with rfl | ⟨lo, rfl, hlo⟩
  · simp [scanDecide, clowOf, chiOf, h2]
  · have h0 : cmp lo v < 0 := cmp_lt_zero_iff.mpr hlo
    have h1 : ¬ (0 : Int) < cmp lo v := by omega
    have h1b : cmp lo v ≠ 0 := by omega
    simp [scanDecide, clowOf, chiOf, h1, h1b, h2]

theorem filter_none {β : Type} {L : List β} {p : β → Bool} (h : ∀ x ∈ L, p x = false) :
    L.filter p = [] := by
  induction L with
  | nil => rfl
  | cons a L ih =>
      have ha := h a (by simp)
      simp [List.filter_cons, ha, ih (fun x hx => h x (by simp [hx]))]

theorem scan_unbounded [LinearOrder α] (t : Tree α) :
    scanList t false none none = inorder t := by
  induction t with
  | nil => rfl
  | node v l r ihl ihr =>
      have hd : scanDecide (none : Option α) none v = (true, true, true) :=
        scanDecide_mid none none v (Or.inl rfl) (Or.inl rfl)
      simp [scanList, hd, ihl, ihr, inorder]

theorem sorted_of_BST [LinearOrder α] {t : Tree α} (h : IsBST t) :
    (inorder t).Sorted (· ≤ ·) := by
  induction t with
  | nil => simp [inorder]
  | node v l r ihl ihr =>
      obtain ⟨hl, hr, bl, br⟩ := h
      rw [inorder]
      refine List.pairwise_append.mpr ⟨ihl bl, ?_, ?_⟩
      · exact List.pairwise_cons.mpr ⟨hr, ihr br⟩
      · intro x hx y hy
        rcases List.mem_cons.mp hy with rfl | hy
        · exact le_of_lt (hl x hx)
        · exact le_of_lt (lt_of_lt_of_le (hl x hx) (hr y hy))

theorem lowOk_false [LinearOrder α] {lo x : α} (h : x < lo) : lowOk (some lo) x = false := by
  simp only [lowOk, decide_eq_false_iff_not, cmp_le_zero_iff, not_le]
  exact h

theorem lowOk_true [LinearOrder α] {lo x : α} (h : lo ≤ x) : lowOk (some lo) x = true := by
  simp only [lowOk, decide_eq_true_eq, cmp_le_zero_iff]
  exact h

theorem hiOk_false [LinearOrder α] {hv x : α} (h : hv < x) : hiOk (some hv) x = false := by
  simp only [hiOk, decide_eq_false_iff_not, cmp_nonneg_iff, not_le]
  exact h

theorem hiOk_true [LinearOrder α] {hv x : α} (h : x ≤ hv) : hiOk (some hv) x = true := by
  simp only [hiOk, decide_eq_true_eq, cmp_nonneg_iff]
  exact h

/-- C4 (amended with the hypothesis that the bounds are not crossed):
on a BST, an ascending scan with bounds `low`, `hi` emits exactly the
in-order subsequence of elements `v` with `low.Cmp(v) <= 0` and
`hi.Cmp(v) >= 0`, an absent bound imposing no restriction. -/
theorem scan_range_filter [LinearOrder α] (t : Tree α) (low hi : Option α)
    (hb : IsBST t) (hok : boundsOk low hi = true) :
    scanList t false low hi = (inorder t).filter (fun v => lowOk low v && hiOk hi v) := by
  revert hb
  induction t with
  | nil => intro hb; rfl
  | node v l r ihl ihr =>
      intro hb
      obtain ⟨hl, hr, bl, br⟩ := hb
      have IHL := ihl bl
      have IHR := ihr br
      rcases low with _ | lo
      · rcases hi with _ | hv
        · have hd := scanDecide_mid (none : Option α) none v (Or.inl rfl) (Or.inl rfl)
          simp [scanList, hd, inorder, List.filter_append, List.filter_cons,
            lowOk, hiOk, IHL, IHR]
        · rcases le_or_lt v hv with hle | hlt
          · have hd := scanDecide_mid (none : Option α) (some hv) v (Or.inl rfl)
              (Or.inr ⟨hv, rfl, hle⟩)
            simp [scanList, hd, inorder, List.filter_append, List.filter_cons,
              lowOk, hiOk_true hle, IHL, IHR]
          · have hd := scanDecide_above (none : Option α) (some hv) v (Or.inl rfl)
              ⟨hv, rfl, hlt⟩
            have hrnil : (inorder r).filter
                (fun x => lowOk (none : Option α) x && hiOk (some hv) x) = [] :=
              filter_none (fun x hx => by
                simp [lowOk, hiOk_false (lt_of_lt_of_le hlt (hr x hx))])
            simp [scanList, hd, inorder, List.filter_append, List.filter_cons,
              hiOk_false hlt, hrnil, lowOk, IHL]
            intro a ha
            exact hiOk_false (lt_of_lt_of_le hlt (hr a ha))
      · rcases lt_trichotomy v lo with hvlo | hveq | hlov
        · have hd := scanDecide_below hi hvlo
          have hlnil : (inorder l).filter
              (fun x => lowOk (some lo) x && hiOk hi x) = [] :=
            filter_none (fun x hx => by
              simp [lowOk_false (lt_trans (hl x hx) hvlo)])
          simp [scanList, hd, inorder, List.filter_append, List.filter_cons,
            lowOk_false hvlo, hlnil, IHR]
        · subst hveq
          have hd := scanDecide_eq_low hi v
          have hlnil : (inorder l).filter
              (fun x => lowOk (some v) x && hiOk hi x) = [] :=
            filter_none (fun x hx => by simp [lowOk_false (hl x hx)])
          have hv2 : hiOk hi v = true := by
            rcases hi with _ | hh
            · rfl
            · have hvh : v ≤ hh := by simpa [boundsOk] using hok
              exact hiOk_true hvh
          simp [scanList, hd, inorder, List.filter_append, List.filter_cons,
            hlnil, lowOk_true le_rfl, hv2, IHR]
        · rcases hi with _ | hv
          · have hd := scanDecide_mid (some lo) none v (Or.inr ⟨lo, rfl, hlov⟩) (Or.inl rfl)
            simp [scanList, hd, inorder, List.filter_append, List.filter_cons,
              lowOk_true (le_of_lt hlov), hiOk, IHL, IHR]
          · rcases le_or_lt v hv with hle | hlt
            · have hd := scanDecide_mid (some lo) (some hv) v (Or.inr ⟨lo, rfl, hlov⟩) (Or.inr ⟨hv, rfl, hle⟩)
              simp [scanList, hd, inorder, List.filter_append, List.filter_cons,
                lowOk_true (le_of_lt hlov), hiOk_true hle, IHL, IHR]
            · have hd := scanDecide_above (some lo) (some hv) v (Or.inr ⟨lo, rfl, hlov⟩) ⟨hv, rfl, hlt⟩
              have hrnil : (inorder r).filter
                  (fun x => lowOk (some lo) x && hiOk (some hv) x) = [] :=
                filter_none (fun x hx => by
                  simp [hiOk_false (lt_of_lt_of_le hlt (hr x hx))])
              simp [scanList, hd, inorder, List.filter_append, List.filter_cons,
                hiOk_false hlt, hrnil, IHL]

/-- C4 counterexample: with crossed bounds `low = 5`, `hi = 3` the scan
emits the root 5 (because `clow = 0` short-circuits the `chi` test),
while the claimed filter semantics yields the empty sequence. -/
theorem scan_range_filter_cex :
    IsBST (Tree.node (5 : Int) .nil .nil) ∧
    scanList (Tree.node (5 : Int) .nil .nil) false (some 5) (some 3) ≠
      (inorder (Tree.node (5 : Int) .nil .nil)).filter
        (fun v => lowOk (some (5 : Int)) v && hiOk (some (3 : Int)) v) :=
  ⟨by decide, by decide⟩

theorem scan_range_filter_witness :
    (IsBST (Tree.node (5 : Int) (.node 3 .nil .nil) (.node 8 .nil .nil)) ∧
      boundsOk (some (2 : Int)) (some (7 : Int)) = true) ∧
    scanList (Tree.node (5 : Int) (.node 3 .nil .nil) (.node 8 .nil .nil)) false
        (some 2) (some 7) =
      (inorder (Tree.node (5 : Int) (.node 3 .nil .nil) (.node 8 .nil .nil))).filter
        (fun v => lowOk (some (2 : Int)) v && hiOk (some (7 : Int)) v) :=
  ⟨⟨by decide, by decide⟩,
    scan_range_filter (Tree.node (5 : Int) (.node 3 .nil .nil) (.node 8 .nil .nil))
      (some 2) (some 7) (by decide) (by decide)⟩

/-- C5: for every tree and bounds, a descending scan emits exactly the
reverse of the ascending scan over the same bounds. -/
theorem scan_descending_reverse [LinearOrder α] (t : Tree α) (low hi : Option α) :
    scanList t true low hi = (scanList t false low hi).reverse := by
  induction t with
  | nil => rfl
  | node v l r ihl ihr =>
      rcases hd : scanDecide low hi v with ⟨b1, b2, b3⟩
      cases b1 <;> cases b2 <;> cases b3 <;>
        simp [scanList, hd, ihl, ihr, List.reverse_append]

/-- C9 (amended): the decision table actually computed at each node.
A node strictly below the lower bound skips emit and the left subtree;
a node equal to the lower bound is emitted but only the right subtree
is explored (regardless of the upper bound, which is not consulted in
that branch); a node strictly above the lower bound (or with no lower
bound) is emitted with both subtrees explored when within the upper
bound, and otherwise only the left subtree is explored. -/
theorem scanDecide_cases [LinearOrder α] (low hi : Option α) (v : α) :
    ((∃ lo, low = some lo ∧ v < lo) → scanDecide low hi v = (false, false, true)) ∧
    (low = some v → scanDecide low hi v = (false, true, true)) ∧
    ((low = none ∨ ∃ lo, low = some lo ∧ lo < v) →
      (hi = none ∨ ∃ h, hi = some h ∧ v ≤ h) →
      scanDecide low hi v = (true, true, true)) ∧
    ((low = none ∨ ∃ lo, low = some lo ∧ lo < v) →
      (∃ h, hi = some h ∧ h < v) →
      scanDecide low hi v = (true, false, false)) :=
  by
  refine ⟨?_, ?_, ?_, ?_⟩
  · rintro ⟨lo, rfl, h2⟩
    exact scanDecide_below hi h2
  · rintro rfl
    exact scanDecide_eq_low hi v
  · intro h1 h2
    exact scanDecide_mid low hi v h1 h2
  · intro h1 h2
    exact scanDecide_above low hi v h1 h2

/-- C9 counterexample: a node equal to the lower bound is in range
(`low.Cmp(v) <= 0` and no upper bound), yet the code does not explore
both subtrees: the decision is `(false, true, true)`, skipping the left
subtree, not `(true, true, true)` as the claim states. -/
theorem scanDecide_cases_cex :
    lowOk (some (5 : Int)) 5 = true ∧ hiOk (none : Option Int) 5 = true ∧
    scanDecide (some (5 : Int)) none 5 ≠ (true, true, true) := by
  refine ⟨by decide, by decide, by decide⟩

theorem scanDecide_cases_witness :
    (some (5 : Int) = some 5) ∧ scanDecide (some (5 : Int)) none 5 = (false, true, true) :=
  ⟨rfl, (scanDecide_cases (some (5 : Int)) none 5).2.1 rfl⟩

theorem Insert_mem [LinearOrder α] (t : Tree α) (v x : α) (u : Bool)
    (hx : x ∈ inorder (Insert t v u).1) : x ∈ inorder t ∨ x = v := by
  induction t with
  | nil =>
      simp [Insert, inorder] at hx
      exact Or.inr hx
  | node w l r ihl ihr =>
      by_cases h1 : cmp v w < 0
      · simp only [Insert, if_pos h1, inorder] at hx
        rcases List.mem_append.mp hx with hx | hx
        · rcases ihl hx with h | h
          · exact Or.inl (by rw [inorder]; exact List.mem_append.mpr (Or.inl h))
          · exact Or.inr h
        · exact Or.inl (by rw [inorder]; exact List.mem_append.mpr (Or.inr hx))
      · by_cases h2 : 0 < cmp v w ∨ (cmp v w = 0 ∧ u = false)
        · simp only [Insert, if_neg h1, if_pos h2, inorder] at hx
          rcases List.mem_append.mp hx with hx | hx
          · exact Or.inl (by rw [inorder]; exact List.mem_append.mpr (Or.inl hx))
          · rcases List.mem_cons.mp hx with rfl | hx
            · exact Or.inl (by rw [inorder]; simp)
            · rcases ihr hx with h | h
              · exact Or.inl (by rw [inorder]; simp [h])
              · exact Or.inr h
        · simp only [Insert, if_neg h1, if_neg h2] at hx
          exact Or.inl hx

theorem Insert_BST [LinearOrder α] (t : Tree α) (v : α) (u : Bool) (hb : IsBST t) :
    IsBST (Insert t v u).1 := by
  revert hb
  induction t with
  | nil =>
      intro hb
      simp [Insert, IsBST, inorder]
  | node w l r ihl ihr =>
      intro hb
      obtain ⟨hl, hr, bl, br⟩ := hb
      by_cases h1 : cmp v w < 0
      · have hvw : v < w := cmp_lt_zero_iff.mp h1
        simp only [Insert, if_pos h1]
        refine ⟨?_, hr, ihl bl, br⟩
        intro x hx
        rcases Insert_mem l v x u hx with h | rfl
        · exact hl x h
        · exact hvw
      · by_cases h2 : 0 < cmp v w ∨ (cmp v w = 0 ∧ u = false)
        · have hwv : w ≤ v := by
            rcases h2 with h | ⟨h, _⟩
            · exact le_of_lt (cmp_pos_iff.mp h)
            · exact le_of_eq (cmp_eq_zero_iff.mp h).symm
          simp only [Insert, if_neg h1, if_pos h2]
          refine ⟨hl, ?_, bl, ihr br⟩
          intro x hx
          rcases Insert_mem r v x u hx with h | rfl
          · exact hr x h
          · exact hwv
        · simp only [Insert, if_neg h1, if_neg h2]
          exact ⟨hl, hr, bl, br⟩

theorem minVal0_cons (l : Tree α) : ∀ (v : α) (r : Tree α),
    inorder (Tree.node v l r) = minVal0 v l :: inorder (removeMin (Tree.node v l r)) := by
  induction l with
  | nil =>
      intro v r
      simp [inorder, minVal0, removeMin]
  | node lv ll lr ihl _ =>
      intro v r
      have h := ihl lv lr
      simp only [inorder, minVal0, removeMin] at h ⊢
      rw [h]
      simp

theorem mem_removeMin {x : α} (v : α) (l r : Tree α)
    (hx : x ∈ inorder (removeMin (Tree.node v l r))) : x ∈ inorder (Tree.node v l r) := by
  rw [minVal0_cons l v r]
  exact List.mem_cons_of_mem _ hx

theorem minVal0_mem (v : α) (l r : Tree α) : minVal0 v l ∈ inorder (Tree.node v l r) := by
  rw [minVal0_cons l v r]
  exact List.mem_cons_self _ _

theorem minVal0_min [LinearOrder α] {v : α} {l r : Tree α}
    (hb : IsBST (Tree.node v l r)) :
    ∀ x ∈ inorder (Tree.node v l r), minVal0 v l ≤ x := by
  have hs := sorted_of_BST hb
  rw [minVal0_cons l v r] at hs
  intro x hx
  rw [minVal0_cons l v r] at hx
  rcases List.mem_cons.mp hx with rfl | hx
  · exact le_rfl
  · exact List.rel_of_sorted_cons hs x hx

theorem removeMin_BST [LinearOrder α] (t : Tree α) (hb : IsBST t) :
    IsBST (removeMin t) := by
  revert hb
  induction t with
  | nil => intro hb; trivial
  | node v l r ihl _ =>
      intro hb
      obtain ⟨hl, hr, bl, br⟩ := hb
      rcases l with _ | ⟨lv, ll, lr⟩
      · exact br
      · refine ⟨?_, hr, ihl bl, br⟩
        intro x hx
        exact hl x (mem_removeMin lv ll lr hx)

theorem Remove_sub [LinearOrder α] (t : Tree α) (k x : α)
    (hx : x ∈ inorder (Remove t k).1) : x ∈ inorder t := by
  induction t with
  | nil => simpa [Remove] using hx
  | node v l r ihl ihr =>
      by_cases h0 : cmp k v = 0
      · rcases l with _ | ⟨lv, ll, lr⟩
        · simp only [Remove, if_pos h0] at hx
          rw [inorder]
          simp [hx]
        · rcases r with _ | ⟨rv, rl, rr⟩
          · simp only [Remove, if_pos h0] at hx
            rw [inorder]
            simp [hx]
          · simp only [Remove, if_pos h0, inorder] at hx
            rw [inorder]
            rcases List.mem_append.mp hx with hx | hx
            · exact List.mem_append.mpr (Or.inl hx)
            · rcases List.mem_cons.mp hx with rfl | hx
              · exact List.mem_append.mpr
                  (Or.inr (List.mem_cons_of_mem v (minVal0_mem rv rl rr)))
              · exact List.mem_append.mpr
                  (Or.inr (List.mem_cons_of_mem v (mem_removeMin rv rl rr hx)))
      · by_cases h1 : cmp k v < 0
        · simp only [Remove, if_neg h0, if_pos h1, inorder] at hx
          rw [inorder]
          rcases List.mem_append.mp hx with hx | hx
          · exact List.mem_append.mpr (Or.inl (ihl hx))
          · exact List.mem_append.mpr (Or.inr hx)
        · simp only [Remove, if_neg h0, if_neg h1, inorder] at hx
          rw [inorder]
          rcases List.mem_append.mp hx with hx | hx
          · exact List.mem_append.mpr (Or.inl hx)
          · rcases List.mem_cons.mp hx with rfl | hx
            · simp
            · exact List.mem_append.mpr (Or.inr (List.mem_cons_of_mem v (ihr hx)))

theorem Remove_none_eq [LinearOrder α] (t : Tree α) (k : α)
    (h : (Remove t k).2 = none) : (Remove t k).1 = t := by
  induction t with
  | nil => rfl
  | node v l r ihl ihr =>
      by_cases h0 : cmp k v = 0
      · rcases l with _ | ⟨lv, ll, lr⟩ <;> rcases r with _ | ⟨rv, rl, rr⟩ <;>
          simp [Remove, h0] at h
      · by_cases h1 : cmp k v < 0
        · simp only [Remove, if_neg h0, if_pos h1] at h ⊢
          rw [ihl h]
        · simp only [Remove, if_neg h0, if_neg h1] at h ⊢
          rw [ihr h]

theorem Remove_none_of_not_mem [LinearOrder α] (t : Tree α) (k : α)
    (hk : k ∉ inorder t) : (Remove t k).2 = none := by
  induction t with
  | nil => rfl
  | node v l r ihl ihr =>
      rw [inorder] at hk
      have hkl : k ∉ inorder l := fun h => hk (List.mem_append.mpr (Or.inl h))
      have hkv : k ≠ v := fun h => hk (List.mem_append.mpr (Or.inr (h ▸ List.mem_cons_self v _)))
      have hkr : k ∉ inorder r :=
        fun h => hk (List.mem_append.mpr (Or.inr (List.mem_cons_of_mem v h)))
      have h0 : ¬ cmp k v = 0 := fun h => hkv (cmp_eq_zero_iff.mp h)
      by_cases h1 : cmp k v < 0
      · simp only [Remove, if_neg h0, if_pos h1]
        exact ihl hkl
      · simp only [Remove, if_neg h0, if_neg h1]
        exact ihr hkr

theorem Remove_mem_spec [LinearOrder α] (t : Tree α) (k : α) (hb : IsBST t)
    (hk : k ∈ inorder t) :
    ∃ w, (Remove t k).2 = some w ∧ inorder (Remove t k).1 = (inorder t).erase k := by
  revert hb hk
  induction t with
  | nil => intro hb hk; simp [inorder] at hk
  | node v l r ihl ihr =>
      intro hb hk
      obtain ⟨hl, hr, bl, br⟩ := hb
      by_cases h0 : cmp k v = 0
      · have hkv : k = v := cmp_eq_zero_iff.mp h0
        subst hkv
        have hknl : k ∉ inorder l := fun hm => absurd (hl k hm) (lt_irrefl k)
        rcases l with _ | ⟨lv, ll, lr⟩
        · refine ⟨k, by simp [Remove, h0], ?_⟩
          simp [Remove, h0, inorder]
        · rcases r with _ | ⟨rv, rl, rr⟩
          · refine ⟨k, by simp [Remove, h0], ?_⟩
            simp only [Remove, if_pos h0]
            conv_rhs => rw [inorder]
            rw [List.erase_append_right _ hknl, List.erase_cons_head]
            simp [inorder]
          · refine ⟨minVal0 rv rl, by simp [Remove, h0], ?_⟩
            simp only [Remove, if_pos h0]
            conv_rhs => rw [inorder]
            rw [List.erase_append_right _ hknl, List.erase_cons_head]
            rw [inorder, minVal0_cons rl rv rr]
      · have hkv : k ≠ v := fun h => h0 (cmp_eq_zero_iff.mpr h)
        by_cases h1 : cmp k v < 0
        · have hklt : k < v := cmp_lt_zero_iff.mp h1
          have hkl : k ∈ inorder l := by
            rw [inorder] at hk
            rcases List.mem_append.mp hk with h | h
            · exact h
            · rcases List.mem_cons.mp h with h | h
              · exact absurd h hkv
              · exact absurd (hr k h) (not_le.mpr hklt)
          obtain ⟨w, hw, he⟩ := ihl bl hkl
          refine ⟨w, by simp [Remove, h0, h1, hw], ?_⟩
          simp only [Remove, if_neg h0, if_pos h1, inorder]
          rw [he, List.erase_append_left _ hkl]
        · have hknl : k ∉ inorder l := by
            intro hm
            have := hl k hm
            have hvk : v < k := by
              have h2 : ¬ cmp k v ≤ 0 := by
                intro hle
                rcases lt_or_eq_of_le hle with hlt | heq
                · exact h1 hlt
                · exact h0 heq
              exact cmp_pos_iff.mp (by omega)
            exact absurd (lt_trans this hvk) (lt_irrefl k)
          have hkr : k ∈ inorder r := by
            rw [inorder] at hk
            rcases List.mem_append.mp hk with h | h
            · exact absurd h hknl
            · rcases List.mem_cons.mp h with h | h
              · exact absurd h hkv
              · exact h
          obtain ⟨w, hw, he⟩ := ihr br hkr
          refine ⟨w, by simp [Remove, h0, h1, hw], ?_⟩
          simp only [Remove, if_neg h0, if_neg h1, inorder]
          rw [he, List.erase_append_right _ hknl,
            List.erase_cons_tail (not_beq_of_ne (Ne.symm hkv))]

theorem Remove_BST [LinearOrder α] (t : Tree α) (k : α) (hb : IsBST t) :
    IsBST (Remove t k).1 := by
  revert hb
  induction t with
  | nil => intro hb; trivial
  | node v l r ihl ihr =>
      intro hb
      obtain ⟨hl, hr, bl, br⟩ := hb
      by_cases h0 : cmp k v = 0
      · rcases l with _ | ⟨lv, ll, lr⟩
        · simpa [Remove, h0] using br
        · rcases r with _ | ⟨rv, rl, rr⟩
          · simpa [Remove, h0] using bl
          · simp only [Remove, if_pos h0]
            have hvm : v ≤ minVal0 rv rl := hr _ (minVal0_mem rv rl rr)
            refine ⟨?_, ?_, bl, removeMin_BST _ br⟩
            · intro x hx
              exact lt_of_lt_of_le (hl x hx) hvm
            · intro x hx
              exact minVal0_min br x (mem_removeMin rv rl rr hx)
      · by_cases h1 : cmp k v < 0
        · simp only [Remove, if_neg h0, if_pos h1]
          refine ⟨?_, hr, ihl bl, br⟩
          intro x hx
          exact hl x (Remove_sub l k x hx)
        · simp only [Remove, if_neg h0, if_neg h1]
          refine ⟨hl, ?_, bl, ihr br⟩
          intro x hx
          exact hr x (Remove_sub r k x hx)

/-- C6: any sequence of Insert and Remove operations starting from the
empty tree yields a tree satisfying the BST ordering invariant, so an
unbounded ascending scan emits a non-decreasing sequence whose length
is the tree's live element count. -/
theorem runOps_invariant [LinearOrder α] (ops : List (Op α)) :
    IsBST (runOps ops) ∧
    (scanList (runOps ops) false none none).Sorted (· ≤ ·) ∧
    (scanList (runOps ops) false none none).length = size (runOps ops) := by
  have hb : IsBST (runOps ops) := by
    rw [runOps]
    have hfold : ∀ (acc : Tree α), IsBST acc → IsBST (ops.foldl applyOp acc) := by
      induction ops with
      | nil => exact fun acc h => h
      | cons op ops ih =>
          intro acc h
          rw [List.foldl_cons]
          apply ih
          cases op with
          | ins v u => exact Insert_BST acc v u h
          | rem k => exact Remove_BST acc k h
    exact hfold .nil trivial
  refine ⟨hb, ?_, ?_⟩
  · rw [scan_unbounded]
    exact sorted_of_BST hb
  · rw [scan_unbounded]
    exact inorder_length _

/-- C7: removing an absent key reports found = false and returns the
tree unchanged (hence an identical scanned sequence); removing a
present key reports found = true, and the scanned sequence loses
exactly one occurrence of that key and remains sorted. -/
theorem Remove_found_spec [LinearOrder α] (t : Tree α) (k : α) (hb : IsBST t) :
    (k ∉ inorder t → Remove t k = (t, none)) ∧
    (k ∈ inorder t → ∃ w, (Remove t k).2 = some w ∧
      scanList (Remove t k).1 false none none = (scanList t false none none).erase k ∧
      (scanList (Remove t k).1 false none none).Sorted (· ≤ ·)) := by
  constructor
  · intro hk
    have h2 := Remove_none_of_not_mem t k hk
    have h1 := Remove_none_eq t k h2
    exact Prod.ext h1 h2
  · intro hk
    obtain ⟨w, hw, he⟩ := Remove_mem_spec t k hb hk
    refine ⟨w, hw, ?_, ?_⟩
    · rw [scan_unbounded, scan_unbounded, he]
    · rw [scan_unbounded]
      exact sorted_of_BST (Remove_BST t k hb)

theorem Remove_found_spec_witness :
    IsBST (Tree.node (2 : Int) (.node 1 .nil .nil) .nil) ∧
    ((1 ∉ inorder (Tree.node (2 : Int) (.node 1 .nil .nil) .nil) →
        Remove (Tree.node (2 : Int) (.node 1 .nil .nil) .nil) 1 =
          (Tree.node (2 : Int) (.node 1 .nil .nil) .nil, none)) ∧
      (1 ∈ inorder (Tree.node (2 : Int) (.node 1 .nil .nil) .nil) →
        ∃ w, (Remove (Tree.node (2 : Int) (.node 1 .nil .nil) .nil) 1).2 = some w ∧
          scanList (Remove (Tree.node (2 : Int) (.node 1 .nil .nil) .nil) 1).1
              false none none =
            (scanList (Tree.node (2 : Int) (.node 1 .nil .nil) .nil)
              false none none).erase 1 ∧
          (scanList (Remove (Tree.node (2 : Int) (.node 1 .nil .nil) .nil) 1).1
            false none none).Sorted (· ≤ ·))) :=
  ⟨by decide, Remove_found_spec (Tree.node (2 : Int) (.node 1 .nil .nil) .nil) 1 (by decide)⟩

theorem Remove_findSubtree [LinearOrder α] (t : Tree α) (k v lv rv : α)
    (ll lr rl rr : Tree α)
    (hf : findSubtree t k = some (.node v (.node lv ll lr) (.node rv rl rr))) :
    (Remove t k).2 = some (minVal0 rv rl) := by
  induction t with
  | nil => simp [findSubtree] at hf
  | node w l2 r2 ihl ihr =>
      by_cases h0 : cmp k w = 0
      · simp only [findSubtree, if_pos h0, Option.some.injEq] at hf
        obtain ⟨rfl, rfl, rfl⟩ := Tree.node.inj hf
        simp [Remove, h0]
      · by_cases h1 : cmp k w < 0
        · simp only [findSubtree, if_neg h0, if_pos h1] at hf
          simp only [Remove, if_neg h0, if_pos h1]
          exact ihl hf
        · simp only [findSubtree, if_neg h0, if_neg h1] at hf
          simp only [Remove, if_neg h0, if_neg h1]
          exact ihr hf

theorem findSubtree_key_mem [LinearOrder α] (t : Tree α) (k v : α) (l r : Tree α)
    (hf : findSubtree t k = some (.node v l r)) : k = v ∧ k ∈ inorder t := by
  induction t with
  | nil => simp [findSubtree] at hf
  | node w l2 r2 ihl ihr =>
      by_cases h0 : cmp k w = 0
      · simp only [findSubtree, if_pos h0, Option.some.injEq] at hf
        obtain ⟨rfl, rfl, rfl⟩ := Tree.node.inj hf
        have hkw := cmp_eq_zero_iff.mp h0
        refine ⟨hkw, ?_⟩
        rw [inorder]
        simp [hkw]
      · by_cases h1 : cmp k w < 0
        · simp only [findSubtree, if_neg h0, if_pos h1] at hf
          obtain ⟨hkv, hm⟩ := ihl hf
          refine ⟨hkv, ?_⟩
          rw [inorder]
          exact List.mem_append.mpr (Or.inl hm)
        · simp only [findSubtree, if_neg h0, if_neg h1] at hf
          obtain ⟨hkv, hm⟩ := ihr hf
          refine ⟨hkv, ?_⟩
          rw [inorder]
          exact List.mem_append.mpr (Or.inr (List.mem_cons_of_mem w hm))

/-- C10: when the node located for the key has two children, Remove
reports the minimum of that node's right subtree (the in-order
successor, copied into the matched node before the successor node is
deleted) as the removed element, and one occurrence of the matched key
disappears from the tree. -/
theorem Remove_two_children [LinearOrder α] (t : Tree α) (k v lv rv : α)
    (ll lr rl rr : Tree α) (hb : IsBST t)
    (hf : findSubtree t k = some (.node v (.node lv ll lr) (.node rv rl rr))) :
    (Remove t k).2 = some (minVal0 rv rl) ∧
    (inorder (Remove t k).1).count k + 1 = (inorder t).count k := by
  refine ⟨Remove_findSubtree t k v lv rv ll lr rl rr hf, ?_⟩
  obtain ⟨_, hkm⟩ := findSubtree_key_mem t k v (.node lv ll lr) (.node rv rl rr) hf
  obtain ⟨w, hw, he⟩ := Remove_mem_spec t k hb hkm
  rw [he, List.count_erase_self]
  have hpos : 0 < (inorder t).count k := List.count_pos_iff.mpr hkm
  omega

theorem Remove_two_children_witness :
    (IsBST (Tree.node (5 : Int) (.node 3 .nil .nil) (.node 8 (.node 6 .nil .nil) .nil)) ∧
      findSubtree (Tree.node (5 : Int) (.node 3 .nil .nil)
          (.node 8 (.node 6 .nil .nil) .nil)) 5 =
        some (.node 5 (.node 3 .nil .nil) (.node 8 (.node 6 .nil .nil) .nil))) ∧
    ((Remove (Tree.node (5 : Int) (.node 3 .nil .nil)
        (.node 8 (.node 6 .nil .nil) .nil)) 5).2 = some (minVal0 8 (.node 6 .nil .nil)) ∧
      (inorder (Remove (Tree.node (5 : Int) (.node 3 .nil .nil)
          (.node 8 (.node 6 .nil .nil) .nil)) 5).1).count 5 + 1 =
        (inorder (Tree.node (5 : Int) (.node 3 .nil .nil)
          (.node 8 (.node 6 .nil .nil) .nil))).count 5) :=
  ⟨⟨by decide, by decide⟩,
    Remove_two_children (Tree.node (5 : Int) (.node 3 .nil .nil)
        (.node 8 (.node 6 .nil .nil) .nil)) 5 5 3 8 .nil .nil (.node 6 .nil .nil) .nil
      (by decide) (by decide)⟩

/-- C8 (amended): the first `Stop()` succeeds — including when the
producer already exhausted the scan naturally, in which case nothing
listens on `quit` and the close is a no-op — but a second `Stop()`
panics, because `close` of an already-closed channel faults; once the
producer has terminated and closed the element channel, a receive as
performed by `Next()` reports not-found immediately. -/
theorem Stop_once_spec :
    Stop ⟨false⟩ = some ⟨true⟩ ∧ Stop ⟨true⟩ = none ∧
    goChanRecv ([] : List Int) true = some (none, []) :=
  ⟨rfl, rfl, rfl⟩

/-- C8 counterexample: calling `Stop()` twice in a row faults — the
second `close(sc.quit)` is a close of an already-closed channel. -/
theorem Stop_twice_cex : (Stop ⟨false⟩).bind Stop = none := rfl

theorem inorder_tree_to_vine (t : Tree α) : inorder (tree_to_vine t).1 = inorder t := by
  induction t using tree_to_vine.induct with
  | case1 => simp [tree_to_vine]
  | case2 v r ih => simp [tree_to_vine, inorder, ih]
  | case3 v lv ll lr r ih => simp [tree_to_vine, inorder, ih]

theorem count_tree_to_vine (t : Tree α) : (tree_to_vine t).2 = size t := by
  induction t using tree_to_vine.induct with
  | case1 => simp [tree_to_vine, size]
  | case2 v r ih => simp [tree_to_vine, size, ih]
  | case3 v lv ll lr r ih =>
      simp [tree_to_vine, size, ih]
      omega

theorem isVine_tree_to_vine (t : Tree α) : isVine (tree_to_vine t).1 := by
  induction t using tree_to_vine.induct with
  | case1 => simp [tree_to_vine, isVine]
  | case2 v r ih => simp [tree_to_vine, isVine, ih]
  | case3 v lv ll lr r ih => simpa [tree_to_vine] using ih

theorem isVine_hmap (t : Tree α) (h : isVine t) : hmap t = List.replicate (size t) 0 := by
  induction t with
  | nil => rfl
  | node v l r ihl ihr =>
      obtain ⟨rfl, hr⟩ := h
      simp [hmap, spine, height, size, List.replicate_succ] at ihr ⊢
      exact ihr hr

theorem height_eq_hf (t : Tree α) : height t = hf (hmap t) := by
  induction t with
  | nil => rfl
  | node v l r ihl ihr =>
      show max (height l) (height r) + 1 = hf (height l :: hmap r)
      rw [hf, ← ihr, Nat.succ_max_succ]

theorem size_lt_two_pow_height (t : Tree α) : size t < 2 ^ height t := by
  induction t with
  | nil => simp [size, height]
  | node v l r ihl ihr =>
      simp only [size, height]
      have h1 : 2 ^ height l ≤ 2 ^ max (height l) (height r) :=
        Nat.pow_le_pow_right (by omega) (le_max_left _ _)
      have h2 : 2 ^ height r ≤ 2 ^ max (height l) (height r) :=
        Nat.pow_le_pow_right (by omega) (le_max_right _ _)
      have h3 : 2 ^ (max (height l) (height r) + 1) =
          2 * 2 ^ max (height l) (height r) := by
        rw [pow_succ]
        ring
      omega

theorem compress_inorder : ∀ (n : Nat) (t t2 : Tree α),
    compress t n = some t2 → inorder t2 = inorder t := by
  intro n
  induction n with
  | zero =>
      intro t t2 h
      simp only [compress, Option.some.injEq] at h
      rw [← h]
  | succ n ih =>
      intro t t2 h
      rcases t with _ | ⟨v, l, r⟩
      · simp [compress] at h
      rcases r with _ | ⟨rv, rl, rr⟩
      · simp [compress] at h
      simp only [compress] at h
      rcases hc : compress rr n with _ | a
      · rw [hc] at h
        simp at h
      · rw [hc] at h
        simp only [Option.map_some', Option.some.injEq] at h
        subst h
        simp [inorder, ih rr a hc]

theorem compress_hmap : ∀ (n : Nat) (t t2 : Tree α),
    compress t n = some t2 → hmap t2 = chl n (hmap t) := by
  intro n
  induction n with
  | zero =>
      intro t t2 h
      simp only [compress, Option.some.injEq] at h
      rw [← h, chl]
  | succ n ih =>
      intro t t2 h
      rcases t with _ | ⟨v, l, r⟩
      · simp [compress] at h
      rcases r with _ | ⟨rv, rl, rr⟩
      · simp [compress] at h
      simp only [compress] at h
      rcases hc : compress rr n with _ | a
      · rw [hc] at h
        simp at h
      · rw [hc] at h
        simp only [Option.map_some', Option.some.injEq] at h
        subst h
        show height (Tree.node v l rl) :: hmap a =
          chl (n + 1) (height l :: height rl :: hmap rr)
        rw [chl, ih rr a hc]
        rfl

theorem compress_total : ∀ (n : Nat) (t : Tree α),
    2 * n ≤ (hmap t).length → ∃ t2, compress t n = some t2 := by
  intro n
  induction n with
  | zero => exact fun t _ => ⟨t, by simp [compress]⟩
  | succ n ih =>
      intro t h
      rcases t with _ | ⟨v, l, r⟩
      · simp [hmap, spine] at h
      rcases r with _ | ⟨rv, rl, rr⟩
      · simp [hmap, spine] at h
        omega
      have hlen : 2 * n ≤ (hmap rr).length := by
        simp [hmap, spine] at h ⊢
        omega
      obtain ⟨a, ha⟩ := ih rr hlen
      exact ⟨.node rv (.node v l rl) a, by simp [compress, ha]⟩

theorem chl_append : ∀ (c : Nat) (ys ts : List Nat), ys.length = 2 * c →
    chl c (ys ++ ts) = pairFold ys ++ ts := by
  intro c
  induction c with
  | zero =>
      intro ys ts h
      have : ys = [] := List.eq_nil_of_length_eq_zero (by omega)
      subst this
      simp [chl, pairFold]
  | succ c ih =>
      intro ys ts h
      rcases ys with _ | ⟨a, ys⟩
      · simp at h
      rcases ys with _ | ⟨b, ys⟩
      · simp at h
        omega
      simp only [List.length_cons] at h
      simp only [List.cons_append, chl, pairFold]
      rw [List.append_eq, ih ys ts (by omega)]

theorem pairFold_length : ∀ (c : Nat) (ys : List Nat), ys.length = 2 * c →
    (pairFold ys).length = c := by
  intro c
  induction c with
  | zero =>
      intro ys h
      have : ys = [] := List.eq_nil_of_length_eq_zero (by omega)
      subst this
      rfl
  | succ c ih =>
      intro ys h
      rcases ys with _ | ⟨a, ys⟩
      · simp at h
      rcases ys with _ | ⟨b, ys⟩
      · simp at h
        omega
      simp only [List.length_cons] at h
      simp only [pairFold, List.length_cons]
      rw [ih ys (by omega)]

theorem pairFold_bound : ∀ (ys : List Nat) (D C : Nat),
    (∀ y ∈ ys, y + D + 1 ≤ C) → ∀ x ∈ pairFold ys, x + D ≤ C := by
  intro ys
  induction ys using pairFold.induct with
  | case1 a b l ih =>
      intro D C hb x hx
      rw [pairFold] at hx
      rcases List.mem_cons.mp hx with rfl | hx
      · have h1 := hb a (by simp)
        have h2 := hb b (by simp)
        rcases le_total a b with hab | hab
        · rw [Nat.max_eq_right hab]
          omega
        · rw [Nat.max_eq_left hab]
          omega
      · exact ih D C (fun y hy => hb y (by simp [hy])) x hx
  | case2 l hl =>
      intro D C hb x hx
      rcases l with _ | ⟨a, l⟩
      · simp [pairFold] at hx
      rcases l with _ | ⟨b, l⟩
      · simp [pairFold] at hx
      · exact absurd rfl (hl a b l)

theorem hf_le : ∀ (L : List Nat) (D C : Nat), D ≤ C →
    (∀ i (h : i < L.length), L.get ⟨i, h⟩ + i + 1 + D ≤ C) → hf L + D ≤ C := by
  intro L
  induction L with
  | nil =>
      intro D C hD _
      simpa [hf] using hD
  | cons a L ih =>
      intro D C hD hb
      have h0 : a + 0 + 1 + D ≤ C := hb 0 (by simp)
      have h1 : hf L + (D + 1) ≤ C := by
        apply ih
        · omega
        · intro i hi
          have h2 := hb (i + 1) (by simpa using Nat.succ_lt_succ hi)
          simp only [List.get_cons_succ] at h2
          omega
      rw [hf]
      rcases le_total (a + 1) (hf L + 1) with hmx | hmx
      · rw [Nat.max_eq_right hmx]
        omega
      · rw [Nat.max_eq_left hmx]
        omega

theorem np2go_spec : ∀ (fuel i r : Nat) (hr : 0 < r), i + 1 - r ≤ fuel →
    ∀ j, r = 2 ^ j → r ≤ i →
    ∃ m, np2go i r hr = 2 ^ m ∧ 2 ^ m ≤ i ∧ i < 2 ^ (m + 1) := by
  intro fuel
  induction fuel with
  | zero =>
      intro i r hr hf j hj hri
      omega
  | succ fuel ih =>
      intro i r hr hf j hj hri
      by_cases h2 : 2 * r ≤ i
      · have e1 : np2go i r hr = np2go i (2 * r) (by omega) := by
          rw [np2go, dif_pos hri]
        rw [e1]
        exact ih i (2 * r) (by omega) (by omega) (j + 1)
          (by rw [hj, pow_succ]; ring) h2
      · have e1 : np2go i r hr = np2go i (2 * r) (by omega) := by
          rw [np2go, dif_pos hri]
        have e2 : np2go i (2 * r) (by omega : 0 < 2 * r) = (2 * r) / 2 := by
          rw [np2go, dif_neg h2]
        have e3 : (2 * r) / 2 = r := by omega
        refine ⟨j, by rw [e1, e2, e3, hj], by omega, ?_⟩
        rw [pow_succ, ← hj]
        omega

theorem np2_spec (m : Nat) (hm : 1 ≤ m) :
    ∃ k, np2 m = 2 ^ k ∧ 2 ^ k ≤ m ∧ m < 2 ^ (k + 1) := by
  have h := np2go_spec (m + 1) m 1 (by omega) (by omega) 0 (by norm_num) hm
  exact h

theorem vtt_loop_inorder : ∀ (sz : Nat) (t t2 : Tree α),
    vtt_loop t sz = some t2 → inorder t2 = inorder t := by
  intro sz
  induction sz using Nat.strong_induction_on with
  | _ sz ih =>
      intro t t2 h
      by_cases h1 : 1 < sz
      · rw [vtt_loop, dif_pos h1] at h
        rcases hc : compress t (sz / 2) with _ | a
        · rw [hc] at h
          simp at h
        · rw [hc] at h
          simp only [Option.some_bind] at h
          have h2 := ih (sz / 2) (Nat.div_lt_self (by omega) (by omega)) a t2 h
          rw [h2, compress_inorder (sz / 2) t a hc]
      · rw [vtt_loop, dif_neg h1] at h
        simp only [Option.some.injEq] at h
        rw [← h]

theorem vtt_loop_main : ∀ (j : Nat), 1 ≤ j →
    ∀ (K E : Nat) (t : Tree α) (ys ts : List Nat),
    j ≤ K →
    hmap t = ys ++ ts →
    ys.length = 2 ^ j - 1 →
    j + ts.length = K →
    (∀ y ∈ ys, y + j ≤ K + E) →
    (∀ q (hq : q < ts.length), ts.get ⟨q, hq⟩ + j + q + 1 ≤ K + E) →
    ∃ t2, vtt_loop t (2 ^ j - 1) = some t2 ∧ height t2 ≤ K + E := by
  intro j hj
  induction j, hj using Nat.le_induction with
  | base =>
      intro K E t ys ts hjK hmt hys hts hby hbt
      refine ⟨t, by rw [vtt_loop, dif_neg (by omega)], ?_⟩
      have hys1 : ys.length = 1 := by simpa using hys
      obtain ⟨y, rfl⟩ := List.length_eq_one.mp hys1
      rw [height_eq_hf, hmt]
      simp only [List.cons_append, List.nil_append]
      rw [hf]
      have hy : y + 1 ≤ K + E := hby y (by simp)
      have hts2 : hf ts + 1 ≤ K + E := by
        apply hf_le ts 1 (K + E) (by omega)
        intro i hi
        have := hbt i hi
        omega
      rcases le_total (y + 1) (hf ts + 1) with hmx | hmx
      · rw [Nat.max_eq_right hmx]
        omega
      · rw [Nat.max_eq_left hmx]
        omega
  | succ j hj ih =>
      intro K E t ys ts hjK hmt hys hts hby hbt
      have hpow : 2 ^ (j + 1) = 2 * 2 ^ j := by
        rw [pow_succ]
        ring
      have hp1 : 2 ≤ 2 ^ j := by
        calc 2 = 2 ^ 1 := by norm_num
        _ ≤ 2 ^ j := Nat.pow_le_pow_right (by omega) hj
      have hsz3 : 3 ≤ 2 ^ (j + 1) - 1 := by omega
      have hcdiv : (2 ^ (j + 1) - 1) / 2 = 2 ^ j - 1 := by omega
      have hlen : 2 * ((2 ^ (j + 1) - 1) / 2) ≤ (hmap t).length := by
        rw [hmt, List.length_append, hys]
        omega
      obtain ⟨a, ha⟩ := compress_total _ t hlen
      have ham : hmap a = chl (2 ^ j - 1) (ys ++ ts) := by
        rw [compress_hmap _ t a ha, hcdiv, hmt]
      set c := 2 ^ j - 1 with hc
      have hyslen2 : ys.length = 2 * c + 1 := by omega
      set front := ys.take (2 * c) with hfront
      have hlen_take : front.length = 2 * c := by
        rw [hfront, List.length_take]
        omega
      have hlen_drop : (ys.drop (2 * c)).length = 1 := by
        rw [List.length_drop]
        omega
      obtain ⟨ylast, hdrop⟩ := List.length_eq_one.mp hlen_drop
      have hsplit : ys = front ++ [ylast] := by
        rw [hfront, ← hdrop, List.take_append_drop]
      have ham2 : hmap a = pairFold front ++ (ylast :: ts) := by
        rw [ham, hsplit, List.append_assoc]
        rw [chl_append c front ([ylast] ++ ts) hlen_take]
        rfl
      have hylast_mem : ylast ∈ ys := by
        rw [hsplit]
        simp
      obtain ⟨t2, hl2, hh2⟩ := ih K E a (pairFold front) (ylast :: ts)
        (by omega)
        ham2
        (pairFold_length c front hlen_take)
        (by simp only [List.length_cons]; omega)
        (by
          intro y hy
          have := pairFold_bound front j (K + E)
            (fun z hz => by
              have hzys : z ∈ ys := by
                rw [hsplit]
                exact List.mem_append.mpr (Or.inl hz)
              have := hby z hzys
              omega) y hy
          omega)
        (by
          intro q hq
          match q with
          | 0 =>
              simp only [List.get]
              have := hby ylast hylast_mem
              omega
          | Nat.succ q2 =>
              simp only [List.get_cons_succ]
              have hq2 : q2 < ts.length := by
                simp only [List.length_cons] at hq
                omega
              have := hbt q2 hq2
              omega)
      refine ⟨t2, ?_, hh2⟩
      rw [vtt_loop, dif_pos (by omega), ha, Option.some_bind, hcdiv]
      exact hl2

theorem np2_one : np2 1 = 1 := by
  rw [np2, np2go, dif_pos (le_refl 1), np2go, dif_neg (by omega)]

theorem Balance_nil : Balance (.nil : Tree α) = some .nil := by
  simp only [Balance, tree_to_vine, vine_to_tree]
  norm_num [np2_one]
  simp only [compress, Option.some_bind]
  rw [vtt_loop, dif_neg (by omega)]

theorem Balance_spec (t : Tree α) :
    ∃ t2, Balance t = some t2 ∧ inorder t2 = inorder t ∧
      (1 ≤ size t → height t2 = Nat.log 2 (size t) + 1) := by
  by_cases hn : 1 ≤ size t
  case neg =>
    have ht : t = .nil := by
      rcases t with _ | ⟨v, l, r⟩
      · rfl
      · simp [size] at hn
    subst ht
    exact ⟨.nil, Balance_nil, rfl, fun h => absurd h hn⟩
  case pos =>
    obtain ⟨K, hK2, hKle, hKlt⟩ := np2_spec (size t + 1) (by omega)
    have hK1 : 1 ≤ K := by
      by_contra hcon
      have hK0 : K = 0 := by omega
      rw [hK0] at hKlt
      norm_num at hKlt
      omega
    have h2K : 2 ^ (K + 1) = 2 * 2 ^ K := by
      rw [pow_succ]
      ring
    have hbal : Balance t =
        (compress (tree_to_vine t).1 (size t + 1 - 2 ^ K)).bind
          (fun root2 => vtt_loop root2 (size t - (size t + 1 - 2 ^ K))) := by
      simp only [Balance, vine_to_tree]
      rw [count_tree_to_vine, hK2]
    have h2lc : 2 * (size t + 1 - 2 ^ K) ≤ size t := by omega
    have hnlc : size t - (size t + 1 - 2 ^ K) = 2 ^ K - 1 := by omega
    have hsz_v : size (tree_to_vine t).1 = size t := by
      rw [← inorder_length, inorder_tree_to_vine, inorder_length]
    have hhm : hmap (tree_to_vine t).1 = List.replicate (size t) 0 := by
      rw [isVine_hmap _ (isVine_tree_to_vine t), hsz_v]
    obtain ⟨a, ha⟩ := compress_total (size t + 1 - 2 ^ K) (tree_to_vine t).1
      (by rw [hhm, List.length_replicate]; omega)
    have ham : hmap a = chl (size t + 1 - 2 ^ K) (List.replicate (size t) 0) := by
      rw [compress_hmap _ _ _ ha, hhm]
    have hrep : List.replicate (size t) (0 : Nat) =
        List.replicate (2 * (size t + 1 - 2 ^ K)) 0 ++
          List.replicate (size t - 2 * (size t + 1 - 2 ^ K)) 0 := by
      rw [← List.replicate_add]
      congr 1
      omega
    have hchl : chl (size t + 1 - 2 ^ K) (List.replicate (size t) 0) =
        pairFold (List.replicate (2 * (size t + 1 - 2 ^ K)) 0) ++
          List.replicate (size t - 2 * (size t + 1 - 2 ^ K)) 0 := by
      rw [hrep, chl_append _ _ _ (by rw [List.length_replicate])]
    have hlen_chl : (chl (size t + 1 - 2 ^ K) (List.replicate (size t) 0)).length =
        2 ^ K - 1 := by
      rw [hchl, List.length_append,
        pairFold_length _ _ (by rw [List.length_replicate]), List.length_replicate]
      omega
    have hbound : ∀ y ∈ chl (size t + 1 - 2 ^ K) (List.replicate (size t) 0),
        (size t + 1 - 2 ^ K = 0 → y = 0) ∧ y ≤ 1 := by
      intro y hy
      rw [hchl] at hy
      rcases List.mem_append.mp hy with hy | hy
      · constructor
        · intro h0
          rw [h0] at hy
          simp [pairFold] at hy
        · have := pairFold_bound (List.replicate (2 * (size t + 1 - 2 ^ K)) 0) 0 1
            (by
              intro z hz
              have := List.eq_of_mem_replicate hz
              omega) y hy
          omega
      · have := List.eq_of_mem_replicate hy
        omega
    have hai : inorder a = inorder t := by
      rw [compress_inorder _ _ _ ha, inorder_tree_to_vine]
    -- run the halving loop
    have hE : ∀ E : Nat, (∀ y ∈ chl (size t + 1 - 2 ^ K) (List.replicate (size t) 0),
        y + K ≤ K + E) →
        ∃ t2, Balance t = some t2 ∧ inorder t2 = inorder t ∧ height t2 ≤ K + E := by
      intro E hEb
      obtain ⟨t2, hl2, hh2⟩ := vtt_loop_main K hK1 K E a
        (chl (size t + 1 - 2 ^ K) (List.replicate (size t) 0)) []
        (le_refl K)
        (by rw [List.append_nil]; exact ham)
        hlen_chl
        (by simp)
        hEb
        (by intro q hq; simp at hq)
      refine ⟨t2, ?_, ?_, hh2⟩
      · rw [hbal, ha, Option.some_bind, hnlc]
        exact hl2
      · rw [vtt_loop_inorder _ _ _ hl2, hai]
    -- lower bound facts, shared
    by_cases h0 : size t + 1 - 2 ^ K = 0
    · obtain ⟨t2, hb2, hi2, hh2⟩ := hE 0 (by
        intro y hy
        have := (hbound y hy).1 h0
        omega)
      refine ⟨t2, hb2, hi2, fun _ => ?_⟩
      have hsz2 : size t2 = size t := by
        rw [← inorder_length, hi2, inorder_length]
      have hlow : size t < 2 ^ height t2 := by
        rw [← hsz2]
        exact size_lt_two_pow_height t2
      have hlogless : Nat.log 2 (size t) < height t2 := by
        by_contra hcon
        have hle2 : 2 ^ height t2 ≤ 2 ^ Nat.log 2 (size t) :=
          Nat.pow_le_pow_right (by omega) (by omega)
        have := Nat.pow_log_le_self 2 (by omega : size t ≠ 0)
        omega
      have hKm : K - 1 + 1 = K := by omega
      have hpm : 2 ^ K = 2 * 2 ^ (K - 1) := by
        conv_lhs => rw [← hKm]
        rw [pow_succ]
        ring
      have hp1 : 1 ≤ 2 ^ (K - 1) := Nat.pos_pow_of_pos _ (by omega)
      have hlog : Nat.log 2 (size t) = K - 1 := by
        apply Nat.log_eq_of_pow_le_of_lt_pow
        · omega
        · rw [hKm]
          omega
      omega
    · obtain ⟨t2, hb2, hi2, hh2⟩ := hE 1 (by
        intro y hy
        have := (hbound y hy).2
        omega)
      refine ⟨t2, hb2, hi2, fun _ => ?_⟩
      have hsz2 : size t2 = size t := by
        rw [← inorder_length, hi2, inorder_length]
      have hlow : size t < 2 ^ height t2 := by
        rw [← hsz2]
        exact size_lt_two_pow_height t2
      have hlogless : Nat.log 2 (size t) < height t2 := by
        by_contra hcon
        have hle2 : 2 ^ height t2 ≤ 2 ^ Nat.log 2 (size t) :=
          Nat.pow_le_pow_right (by omega) (by omega)
        have := Nat.pow_log_le_self 2 (by omega : size t ≠ 0)
        omega
      have hlog : Nat.log 2 (size t) = K := by
        apply Nat.log_eq_of_pow_le_of_lt_pow
        · omega
        · omega
      omega

/-- C1: for every tree with `n >= 1` nodes, Balance succeeds, keeps the
same elements in the same in-order sequence, and the resulting tree has
height exactly `floor(log2 n) + 1`. -/
theorem Balance_height (t : Tree α) (hn : 1 ≤ size t) :
    ∃ t2, Balance t = some t2 ∧ inorder t2 = inorder t ∧
      height t2 = Nat.log2 (size t) + 1 := by
  obtain ⟨t2, h1, h2, h3⟩ := Balance_spec t
  exact ⟨t2, h1, h2, by rw [Nat.log2_eq_log_two]; exact h3 hn⟩

theorem Balance_height_witness :
    1 ≤ size (Tree.node (2 : Int) (.node 1 .nil .nil) (.node 3 .nil .nil)) ∧
    ∃ t2, Balance (Tree.node (2 : Int) (.node 1 .nil .nil) (.node 3 .nil .nil)) = some t2 ∧
      inorder t2 = inorder (Tree.node (2 : Int) (.node 1 .nil .nil) (.node 3 .nil .nil)) ∧
      height t2 =
        Nat.log2 (size (Tree.node (2 : Int) (.node 1 .nil .nil) (.node 3 .nil .nil))) + 1 :=
  ⟨by decide,
    Balance_height (Tree.node (2 : Int) (.node 1 .nil .nil) (.node 3 .nil .nil)) (by decide)⟩

/-- C2: balancing preserves the in-order sequence of elements exactly,
for every tree. -/
theorem Balance_inorder (t : Tree α) :
    ∃ t2, Balance t = some t2 ∧ inorder t2 = inorder t := by
  obtain ⟨t2, h1, h2, _⟩ := Balance_spec t
  exact ⟨t2, h1, h2⟩

/-- C3: for every tree passed to Balance, every compress call issued by
the vine_to_tree driver finds all the pivots it dereferences: the whole
computation, in which a missing pivot is modelled as `none`, always
returns `some`. -/
theorem Balance_isSome (t : Tree α) : (Balance t).isSome = true := by
  obtain ⟨t2, h1, _⟩ := Balance_spec t
  rw [h1]
  rfl

end Bintree
